import Mathlib

/-!
Verification development for the `sorted-groups` Rust crate
(`src/src/lib.rs`).

The crate stores elements in a `BTreeMap<G, BTreeSet<E>>`: a sorted map
from group key to a sorted set of elements, where the group key of an
element is computed by a caller-supplied function `group_from_element`.

Shallow embedding conventions:
* A `BTreeSet<E>` is embedded as a `List E` kept strictly sorted under a
  comparison function `cmpE : E → E → Ordering` (the `Ord` instance of `E`).
* A `BTreeMap<G, BTreeSet<E>>` is embedded as a `List (G × List E)` kept
  strictly sorted on keys under `cmpG : G → G → Ordering`.
* Rust `Ord` instances are modelled as explicit comparison functions
  together with the lawfulness predicate `LawfulCmp`, which captures the
  documented contract of `Ord` (a total order; `Ordering.eq` is an
  equivalence that need not coincide with definitional equality, exactly
  as two Rust values may compare `Equal` without being identical).
* The stored closure `group_from_element : F` is embedded as a stored
  function `E → G`.
-/

/-- The result of one Rust three-way comparison `a.cmp(&b)`. -/
abbrev RCmp (α : Type) := α → α → Ordering

/-- The contract of a well-behaved Rust `Ord` instance: comparison is
antisymmetric under `Ordering.swap`, `lt` is transitive and compatible
with `eq`, and `eq` is transitive. `eq` is an equivalence relation that
is not required to be definitional equality. -/
structure LawfulCmp {α : Type} (cmp : RCmp α) : Prop where
  eq_swap : ∀ a b, cmp a b = (cmp b a).swap
  lt_trans : ∀ {a b c}, cmp a b = Ordering.lt → cmp b c = Ordering.lt →
    cmp a c = Ordering.lt
  lt_of_lt_of_eq : ∀ {a b c}, cmp a b = Ordering.lt → cmp b c = Ordering.eq →
    cmp a c = Ordering.lt
  lt_of_eq_of_lt : ∀ {a b c}, cmp a b = Ordering.eq → cmp b c = Ordering.lt →
    cmp a c = Ordering.lt
  eq_trans : ∀ {a b c}, cmp a b = Ordering.eq → cmp b c = Ordering.eq →
    cmp a c = Ordering.eq

variable {G E : Type}

/-- Models Rust `BTreeSet::insert` on the sorted-list embedding of a
`BTreeSet<E>`: walk to the insertion point; if an element comparing
`Equal` is already present the set is left unchanged (per the `BTreeSet`
documentation the existing element is kept and the new one is dropped),
otherwise the new element is placed at its sorted position. -/
def setInsert (cmpE : RCmp E) (e : E) : List E → List E
  | [] => [e]
  | x :: xs =>
    match cmpE e x with
    | Ordering.lt => e :: x :: xs
    | Ordering.eq => x :: xs
    | Ordering.gt => x :: setInsert cmpE e xs

/-- Models the body of `SortedGroups::insert` (src/src/lib.rs:76-81):
`self.groups.entry(key_of(&element)).or_default().insert(element)` on the
sorted-association-list embedding of the `BTreeMap`. On an `Equal` key
match the map keeps the already stored key, as `BTreeMap::entry` does;
otherwise a fresh group (default-empty set) is created at the sorted
position for the derived key. -/
def insertIntoGroups (cmpG : RCmp G) (cmpE : RCmp E) (key_of : E → G) (e : E) :
    List (G × List E) → List (G × List E)
  | [] => [(key_of e, setInsert cmpE e [])]
  | (k, s) :: rest =>
    match cmpG (key_of e) k with
    | Ordering.lt => (key_of e, setInsert cmpE e []) :: (k, s) :: rest
    | Ordering.eq => (k, setInsert cmpE e s) :: rest
    | Ordering.gt => (k, s) :: insertIntoGroups cmpG cmpE key_of e rest

/-- The container `SortedGroups<G, E, F>` (src/src/lib.rs:45-53): the
`groups` field is the sorted-association-list embedding of
`BTreeMap<G, BTreeSet<E>>`; `group_from_element` is the stored key
extraction closure. -/
structure SortedGroups (G E : Type) where
  groups : List (G × List E)
  group_from_element : E → G

namespace SortedGroups

/-- `SortedGroups::new` (src/src/lib.rs:61-66): empty map, stored closure. -/
def new (group_from_element : E → G) : SortedGroups G E :=
  { groups := [], group_from_element := group_from_element }

/-- `SortedGroups::insert` (src/src/lib.rs:76-81). -/
def insert (cmpG : RCmp G) (cmpE : RCmp E) (s : SortedGroups G E) (e : E) :
    SortedGroups G E :=
  { s with groups := insertIntoGroups cmpG cmpE s.group_from_element e s.groups }

/-- `SortedGroups::from_iter` (src/src/lib.rs:68-74): start from `new` and
run the `for` loop inserting each element of the input in order. -/
def from_iter (cmpG : RCmp G) (cmpE : RCmp E) (elements : List E)
    (group_from_element : E → G) : SortedGroups G E :=
  loop (new group_from_element) elements
where
  /-- The `for element in elements { sorted_groups.insert(element) }` loop. -/
  loop : SortedGroups G E → List E → SortedGroups G E
    | s, [] => s
    | s, e :: rest => loop (insert cmpG cmpE s e) rest

/-- `SortedGroups::len` (src/src/lib.rs:83-85):
`self.groups.values().map(|v| v.len()).sum()`. -/
def len (s : SortedGroups G E) : Nat :=
  (s.groups.map (fun v => v.2.length)).sum

/-- `SortedGroups::groups_len` (src/src/lib.rs:87-89): `self.groups.len()`. -/
def groups_len (s : SortedGroups G E) : Nat :=
  s.groups.length

end SortedGroups

/-- The iterator `SortedGroupsIter` (src/src/lib.rs:96-101): the not yet
visited tail of the map iterator, and the current group key together with
the not yet yielded tail of its set iterator. -/
structure SortedGroupsIter (G E : Type) where
  groups_iter : List (G × List E)
  current_group : Option (G × List E)

/-- `SortedGroups::iter` (src/src/lib.rs:109-117): take the map iterator,
advance it once, and store that first group (if any) as the current group. -/
def SortedGroups.iter (s : SortedGroups G E) : SortedGroupsIter G E :=
  match s.groups with
  | [] => { groups_iter := [], current_group := none }
  | (g, v) :: rest => { groups_iter := rest, current_group := some (g, v) }

/-- `SortedGroupsIter::next` (src/src/lib.rs:127-141), returning the yielded
pair together with the successor state. With no current group it returns
`none`; with a current group it yields that group's next element, or — when
the current set iterator is exhausted — advances to the next group and
loops. -/
def SortedGroupsIter.next :
    SortedGroupsIter G E → Option ((G × E) × SortedGroupsIter G E)
  | { groups_iter := _, current_group := none } => none
  | { groups_iter := gs, current_group := some (g, e :: rest) } =>
      some ((g, e), { groups_iter := gs, current_group := some (g, rest) })
  | { groups_iter := [], current_group := some (_, []) } => none
  | { groups_iter := (g2, v2) :: gs2, current_group := some (_, []) } =>
      SortedGroupsIter.next { groups_iter := gs2, current_group := some (g2, v2) }
termination_by it => it.groups_iter.length

/-- The full sequence of pairs an iterator state still yields. Stated
directly on the state; the theorem for claim C1 proves that this list
satisfies exactly the step recurrence of `SortedGroupsIter.next`, so it
is the sequence obtained by repeatedly calling `next`. -/
def SortedGroupsIter.toList : SortedGroupsIter G E → List (G × E)
  | { groups_iter := _, current_group := none } => []
  | { groups_iter := gs, current_group := some (g, es) } =>
      es.map (fun e => (g, e)) ++ gs.flatMap (fun p => p.2.map (fun e => (p.1, e)))

/-- The flattened content of the container in stored order: the
concatenation, group by group, of each group's element sequence paired
with its key. -/
def SortedGroups.flatten (s : SortedGroups G E) : List (G × E) :=
  s.groups.flatMap (fun p => p.2.map (fun e => (p.1, e)))

/-- Modelled from the spec: `is_empty()` is described in spec.md §4.1
("`is_empty()`: `len() == 0`") but is absent from src/src/lib.rs. -/
def SortedGroups.is_empty (s : SortedGroups G E) : Bool :=
  s.len == 0

/-- Modelled from the spec: `get(index)` is described in spec.md §4.1
("returns the (group-key, element) pair at the given zero-based position in
the flattened ascending traversal order (group-major, then element-minor),
or signals absence if index is out of range. This is a linear-time
operation (walks the flattened iterator)") but is absent from
src/src/lib.rs. It walks the sequence produced by `iter()` and returns the
pair at the requested position, or `none` past the end. -/
def SortedGroups.get (s : SortedGroups G E) (index : Nat) : Option (G × E) :=
  s.iter.toList.get? index

/-- Well-formedness of the embedding, i.e. the representation invariant
that `BTreeMap` and `BTreeSet` maintain by construction: the keys of the
association list are pairwise strictly ascending under `cmpG`, and each
group's element list is pairwise strictly ascending under `cmpE`. -/
def WF (cmpG : RCmp G) (cmpE : RCmp E) (s : SortedGroups G E) : Prop :=
  s.groups.Pairwise (fun p q => cmpG p.1 q.1 = Ordering.lt) ∧
    ∀ p ∈ s.groups, p.2.Pairwise (fun a b => cmpE a b = Ordering.lt)

/-- The key invariant of spec.md §3: every stored element lies in the group
of its own derived key (its derived key compares `Equal` to the stored
group key). -/
def KeyInv (cmpG : RCmp G) (s : SortedGroups G E) : Prop :=
  ∀ p ∈ s.groups, ∀ e ∈ p.2, cmpG (s.group_from_element e) p.1 = Ordering.eq

/-- Membership up to the comparison functions: some group whose stored key
compares `Equal` to `g` holds an element comparing `Equal` to `x`. This is
what Rust code can observe about containment. -/
def SortedGroups.holds (cmpG : RCmp G) (cmpE : RCmp E) (s : SortedGroups G E)
    (g : G) (x : E) : Prop :=
  ∃ p ∈ s.groups, cmpG g p.1 = Ordering.eq ∧ ∃ y ∈ p.2, cmpE x y = Ordering.eq

/-- An element comparing `Equal` to `x` is stored somewhere in the
container (in any group). -/
def SortedGroups.holdsElem (cmpE : RCmp E) (s : SortedGroups G E) (x : E) : Prop :=
  ∃ p ∈ s.groups, ∃ y ∈ p.2, cmpE x y = Ordering.eq

instance {cmpG : RCmp G} {cmpE : RCmp E} (s : SortedGroups G E) (g : G) (x : E) :
    Decidable (s.holds cmpG cmpE g x) := by
  unfold SortedGroups.holds
  exact inferInstance

instance {cmpE : RCmp E} (s : SortedGroups G E) (x : E) :
    Decidable (s.holdsElem cmpE x) := by
  unfold SortedGroups.holdsElem
  exact inferInstance

/-- Equality of two sorted-set embeddings as Rust `==` (the derived
`PartialEq` of `BTreeSet`) observes it: same length and pointwise
`Equal` elements. For a law-abiding `Ord`, `a == b` coincides with
`a.cmp(&b) == Equal`. -/
def listEqBy (cmp : RCmp E) : List E → List E → Bool
  | [], [] => true
  | x :: xs, y :: ys => (cmp x y == Ordering.eq) && listEqBy cmp xs ys
  | _, _ => false

/-- Container equality per spec.md §4.1: the group mappings are
structurally equal — same keys, same groups, same elements — observed, as
Rust `==` does, through the `Ord`-consistent equality of keys and
elements. The stored key-extraction function is irrelevant. -/
def containerEq (cmpG : RCmp G) (cmpE : RCmp E)
    (s t : SortedGroups G E) : Bool :=
  go s.groups t.groups
where
  go : List (G × List E) → List (G × List E) → Bool
    | [], [] => true
    | p :: ps, q :: qs =>
        (cmpG p.1 q.1 == Ordering.eq) && listEqBy cmpE p.2 q.2 && go ps qs
    | _, _ => false

/-- The number of distinct elements of a list under `cmp`-equality: scan
left to right, counting each element whose equivalence class was not seen
before. -/
def distinctCount (cmpE : RCmp E) (xs : List E) : Nat :=
  (xs.foldl (fun acc x =>
    if acc.any (fun y => cmpE x y == Ordering.eq) then acc else x :: acc) []).length

/-- Whether some group whose key compares `Equal` to `k` is present. -/
def SortedGroups.hasKey (cmpG : RCmp G) (s : SortedGroups G E) (k : G) : Bool :=
  s.groups.any (fun p => cmpG k p.1 == Ordering.eq)

/-- The group stored under a key comparing `Equal` to `g`, if any: what
`self.groups.get(&g)` would return. -/
def SortedGroups.findGroup (cmpG : RCmp G) (s : SortedGroups G E) (g : G) :
    Option (List E) :=
  (s.groups.find? (fun p => cmpG g p.1 == Ordering.eq)).map Prod.snd

instance {cmpG : RCmp G} {cmpE : RCmp E} (s : SortedGroups G E) :
    Decidable (WF cmpG cmpE s) := by
  unfold WF
  exact inferInstance

instance {cmpG : RCmp G} (s : SortedGroups G E) :
    Decidable (KeyInv cmpG s) := by
  unfold KeyInv
  exact inferInstance

/-- Comparison fixture for witnesses: the `Ord` of the natural numbers. -/
def natCmp : RCmp Nat := fun a b => compare a b

/-- Element fixture with order-equal but distinct values: pairs compared on
their first component only; the second component is an identity tag the
order ignores, as Rust permits for a lawful `Ord`/`PartialEq` pair of a
type whose equality is coarser than structural identity. -/
def pairFstCmp : RCmp (Nat × Nat) := fun a b => compare a.1 b.1

namespace LawfulCmp

variable {α : Type} {cmp : RCmp α} {a b c : α}

theorem refl (h : LawfulCmp cmp) (a : α) : cmp a a = Ordering.eq := by
  have hs := h.eq_swap a a
  cases hcase : cmp a a <;> rw [hcase] at hs <;>
    first
    | rfl
    | simp [Ordering.swap] at hs

theorem eq_symm (h : LawfulCmp cmp) (hab : cmp a b = Ordering.eq) :
    cmp b a = Ordering.eq := by
  have hs := h.eq_swap a b
  rw [hab] at hs
  cases hcase : cmp b a <;> rw [hcase] at hs <;>
    first
    | rfl
    | simp [Ordering.swap] at hs

theorem gt_of_lt (h : LawfulCmp cmp) (hab : cmp a b = Ordering.lt) :
    cmp b a = Ordering.gt := by
  have hs := h.eq_swap a b
  rw [hab] at hs
  cases hcase : cmp b a <;> rw [hcase] at hs <;>
    first
    | rfl
    | simp [Ordering.swap] at hs

theorem lt_of_gt (h : LawfulCmp cmp) (hab : cmp a b = Ordering.gt) :
    cmp b a = Ordering.lt := by
  have hs := h.eq_swap a b
  rw [hab] at hs
  cases hcase : cmp b a <;> rw [hcase] at hs <;>
    first
    | rfl
    | simp [Ordering.swap] at hs

theorem congr_right (h : LawfulCmp cmp) (hbc : cmp b c = Ordering.eq) :
    cmp a b = cmp a c := by
  cases hab : cmp a b with
  | lt => exact (h.lt_of_lt_of_eq hab hbc).symm
  | eq => exact (h.eq_trans hab hbc).symm
  | gt =>
      have h1 : cmp b a = Ordering.lt := h.lt_of_gt hab
      have h2 : cmp c a = Ordering.lt := h.lt_of_eq_of_lt (h.eq_symm hbc) h1
      exact (h.gt_of_lt h2).symm

theorem congr_left (h : LawfulCmp cmp) (hab : cmp a b = Ordering.eq) :
    cmp a c = cmp b c := by
  cases hbc : cmp b c with
  | lt => exact h.lt_of_eq_of_lt hab hbc
  | eq => exact h.eq_trans hab hbc
  | gt =>
      have h1 : cmp c b = Ordering.lt := h.lt_of_gt hbc
      have h2 : cmp c a = Ordering.lt := h.lt_of_lt_of_eq h1 (h.eq_symm hab)
      exact h.gt_of_lt h2

end LawfulCmp

/-- A three-way comparison obtained from a linear order is a lawful `Ord`. -/
theorem lawfulCmp_compare {α : Type} [LinearOrder α] :
    LawfulCmp (fun a b : α => compare a b) := by
  constructor
  · intro a b
    rcases lt_trichotomy a b with hlt | heq | hgt
    · simp [compare_lt_iff_lt.mpr hlt, compare_gt_iff_gt.mpr hlt, Ordering.swap]
    · simp [heq, compare_eq_iff_eq.mpr rfl, Ordering.swap]
    · simp [compare_gt_iff_gt.mpr hgt, compare_lt_iff_lt.mpr hgt, Ordering.swap]
  · intro a b c hab hbc
    simp only [compare_lt_iff_lt] at hab hbc ⊢
    exact lt_trans hab hbc
  · intro a b c hab hbc
    simp only [compare_lt_iff_lt, compare_eq_iff_eq] at hab hbc ⊢
    exact hbc ▸ hab
  · intro a b c hab hbc
    simp only [compare_lt_iff_lt, compare_eq_iff_eq] at hab hbc ⊢
    exact hab ▸ hbc
  · intro a b c hab hbc
    simp only [compare_eq_iff_eq] at hab hbc ⊢
    exact hab.trans hbc

/-- `==` on `Ordering` agrees with propositional equality. -/
theorem ordering_beq_iff (a b : Ordering) : (a == b) = true ↔ a = b := by
  cases a <;> cases b <;> decide

section SetInsertLemmas

variable {cmp : RCmp E} {e q y : E} {xs : List E}

theorem setInsert_subset (hy : y ∈ setInsert cmp e xs) : y = e ∨ y ∈ xs := by
  induction xs with
  | nil => simpa [setInsert] using hy
  | cons x xs ih =>
      cases hcmp : cmp e x <;> simp only [setInsert, hcmp] at hy
      · rcases List.mem_cons.mp hy with h1 | h1
        · exact Or.inl h1
        · exact Or.inr h1
      · exact Or.inr hy
      · rcases List.mem_cons.mp hy with h1 | h1
        · exact Or.inr (h1 ▸ List.mem_cons_self x xs)
        · rcases ih h1 with h2 | h2
          · exact Or.inl h2
          · exact Or.inr (List.mem_cons_of_mem x h2)

theorem subset_setInsert (hy : y ∈ xs) : y ∈ setInsert cmp e xs := by
  induction xs with
  | nil => cases hy
  | cons x xs ih =>
      cases hcmp : cmp e x <;> simp only [setInsert, hcmp]
      · exact List.mem_cons_of_mem e hy
      · exact hy
      · rcases List.mem_cons.mp hy with h1 | h1
        · exact h1 ▸ List.mem_cons_self x _
        · exact List.mem_cons_of_mem x (ih h1)

theorem setInsert_pairwise (h : LawfulCmp cmp)
    (hs : xs.Pairwise (fun a b => cmp a b = Ordering.lt)) :
    (setInsert cmp e xs).Pairwise (fun a b => cmp a b = Ordering.lt) := by
  induction xs with
  | nil => simp [setInsert]
  | cons x xs ih =>
      rw [List.pairwise_cons] at hs
      cases hcmp : cmp e x <;> simp only [setInsert, hcmp]
      · refine List.pairwise_cons.mpr ⟨?_, List.pairwise_cons.mpr hs⟩
        intro y hy
        rcases List.mem_cons.mp hy with h1 | h1
        · exact h1 ▸ hcmp
        · exact h.lt_trans hcmp (hs.1 y h1)
      · exact List.pairwise_cons.mpr hs
      · refine List.pairwise_cons.mpr ⟨?_, ih hs.2⟩
        intro y hy
        rcases setInsert_subset hy with h1 | h1
        · exact h1 ▸ h.lt_of_gt hcmp
        · exact hs.1 y h1

theorem setInsert_length (h : LawfulCmp cmp)
    (hs : xs.Pairwise (fun a b => cmp a b = Ordering.lt)) :
    (setInsert cmp e xs).length =
      if xs.any (fun z => cmp e z == Ordering.eq) then xs.length
      else xs.length + 1 := by
  induction xs with
  | nil => simp [setInsert]
  | cons x xs ih =>
      rw [List.pairwise_cons] at hs
      cases hcmp : cmp e x <;> simp only [setInsert, hcmp]
      · have hnone : ∀ z ∈ xs, ¬cmp e z = Ordering.eq := by
          intro z hz hez
          have h1 : cmp e z = Ordering.lt := h.lt_trans hcmp (hs.1 z hz)
          rw [h1] at hez; cases hez
        have hany : ((x :: xs).any fun z => cmp e z == Ordering.eq) = false := by
          simp only [List.any_eq_false, ordering_beq_iff]
          intro z hz
          rcases List.mem_cons.mp hz with h1 | h1
          · rw [h1, hcmp]; intro hx; cases hx
          · exact hnone z h1
        rw [hany]
        simp
      · have hany : ((x :: xs).any fun z => cmp e z == Ordering.eq) = true := by
          simp only [List.any_cons, Bool.or_eq_true, ordering_beq_iff]
          exact Or.inl hcmp
        rw [hany]
        simp
      · have hx : (cmp e x == Ordering.eq) = false := by rw [hcmp]; rfl
        simp only [List.any_cons, hx, Bool.false_or, List.length_cons]
        rw [ih hs.2]
        by_cases hany : (xs.any fun z => cmp e z == Ordering.eq) = true
        · rw [hany]; simp
        · rw [Bool.of_not_eq_true hany]; simp

theorem exists_eq_setInsert (h : LawfulCmp cmp) :
    (∃ z ∈ setInsert cmp e xs, cmp q z = Ordering.eq) ↔
      (∃ z ∈ xs, cmp q z = Ordering.eq) ∨ cmp q e = Ordering.eq := by
  induction xs with
  | nil =>
      simp [setInsert]
  | cons x xs ih =>
      cases hcmp : cmp e x <;> simp only [setInsert, hcmp]
      · constructor
        · rintro ⟨z, hz, hqz⟩
          rcases List.mem_cons.mp hz with h1 | h1
          · exact Or.inr (h1 ▸ hqz)
          · exact Or.inl ⟨z, h1, hqz⟩
        · rintro (⟨z, hz, hqz⟩ | hqe)
          · exact ⟨z, List.mem_cons_of_mem e hz, hqz⟩
          · exact ⟨e, List.mem_cons_self e _, hqe⟩
      · constructor
        · rintro ⟨z, hz, hqz⟩
          exact Or.inl ⟨z, hz, hqz⟩
        · rintro (⟨z, hz, hqz⟩ | hqe)
          · exact ⟨z, hz, hqz⟩
          · exact ⟨x, List.mem_cons_self x xs, h.eq_trans hqe hcmp⟩
      · constructor
        · rintro ⟨z, hz, hqz⟩
          rcases List.mem_cons.mp hz with h1 | h1
          · exact Or.inl ⟨x, List.mem_cons_self x xs, h1 ▸ hqz⟩
          · rcases ih.mp ⟨z, h1, hqz⟩ with h2 | h2
            · rcases h2 with ⟨z2, hz2, hq2⟩
              exact Or.inl ⟨z2, List.mem_cons_of_mem x hz2, hq2⟩
            · exact Or.inr h2
        · rintro (⟨z, hz, hqz⟩ | hqe)
          · rcases List.mem_cons.mp hz with h1 | h1
            · exact ⟨z, h1 ▸ List.mem_cons_self x _, hqz⟩
            · rcases ih.mpr (Or.inl ⟨z, h1, hqz⟩) with ⟨z2, hz2, hq2⟩
              exact ⟨z2, List.mem_cons_of_mem x hz2, hq2⟩
          · rcases ih.mpr (Or.inr hqe) with ⟨z2, hz2, hq2⟩
            exact ⟨z2, List.mem_cons_of_mem x hz2, hq2⟩

theorem setInsert_eq_self (h : LawfulCmp cmp)
    (hs : xs.Pairwise (fun a b => cmp a b = Ordering.lt))
    (hy : ∃ z ∈ xs, cmp e z = Ordering.eq) : setInsert cmp e xs = xs := by
  induction xs with
  | nil => rcases hy with ⟨z, hz, _⟩; cases hz
  | cons x xs ih =>
      rw [List.pairwise_cons] at hs
      rcases hy with ⟨z, hz, hez⟩
      rcases List.mem_cons.mp hz with h1 | h1
      · have hex : cmp e x = Ordering.eq := h1 ▸ hez
        simp only [setInsert, hex]
      · have hgt : cmp e x = Ordering.gt := by
          have h2 : cmp z x = Ordering.gt := h.gt_of_lt (hs.1 z h1)
          have h3 : cmp e x = cmp z x := h.congr_left hez
          rw [h3, h2]
        simp only [setInsert, hgt]
        rw [ih hs.2 ⟨z, h1, hez⟩]

end SetInsertLemmas

section GroupInsertLemmas

variable {cmpG : RCmp G} {cmpE : RCmp E} {key : E → G} {e : E}
variable {gs : List (G × List E)} {p : G × List E}

/-- Everything in the updated map is an untouched old group, the freshly
created group for the derived key, or the old group with key comparing
`Equal` to the derived key, with the element inserted into its set. -/
theorem insertIntoGroups_cases (hp : p ∈ insertIntoGroups cmpG cmpE key e gs) :
    p ∈ gs ∨
      (p.1 = key e ∧ p.2 = setInsert cmpE e []) ∨
      (∃ s, (p.1, s) ∈ gs ∧ cmpG (key e) p.1 = Ordering.eq ∧
        p.2 = setInsert cmpE e s) := by
  induction gs with
  | nil =>
      simp only [insertIntoGroups, List.mem_singleton] at hp
      exact Or.inr (Or.inl (by rw [hp]; exact ⟨rfl, rfl⟩))
  | cons q gs ih =>
      obtain ⟨k, s⟩ := q
      cases hcmp : cmpG (key e) k <;> simp only [insertIntoGroups, hcmp] at hp
      · rcases List.mem_cons.mp hp with h1 | h1
        · exact Or.inr (Or.inl (by rw [h1]; exact ⟨rfl, rfl⟩))
        · exact Or.inl h1
      · rcases List.mem_cons.mp hp with h1 | h1
        · refine Or.inr (Or.inr ⟨s, ?_, ?_, ?_⟩)
          · rw [h1]; exact List.mem_cons_self _ _
          · rw [h1]; exact hcmp
          · rw [h1]
        · exact Or.inl (List.mem_cons_of_mem _ h1)
      · rcases List.mem_cons.mp hp with h1 | h1
        · exact Or.inl (h1 ▸ List.mem_cons_self _ _)
        · rcases ih h1 with h2 | h2 | ⟨s2, hs2, hq2, he2⟩
          · exact Or.inl (List.mem_cons_of_mem _ h2)
          · exact Or.inr (Or.inl h2)
          · exact Or.inr (Or.inr ⟨s2, List.mem_cons_of_mem _ hs2, hq2, he2⟩)

theorem insertIntoGroups_keys_pairwise (hG : LawfulCmp cmpG)
    (hs : gs.Pairwise (fun p q => cmpG p.1 q.1 = Ordering.lt)) :
    (insertIntoGroups cmpG cmpE key e gs).Pairwise
      (fun p q => cmpG p.1 q.1 = Ordering.lt) := by
  induction gs with
  | nil => simp [insertIntoGroups]
  | cons q gs ih =>
      obtain ⟨k, s⟩ := q
      rw [List.pairwise_cons] at hs
      cases hcmp : cmpG (key e) k <;> simp only [insertIntoGroups, hcmp]
      · refine List.pairwise_cons.mpr ⟨?_, List.pairwise_cons.mpr hs⟩
        intro q hq
        rcases List.mem_cons.mp hq with h1 | h1
        · rw [h1]; exact hcmp
        · exact hG.lt_trans hcmp (hs.1 q h1)
      · exact List.pairwise_cons.mpr hs
      · refine List.pairwise_cons.mpr ⟨?_, ih hs.2⟩
        intro q hq
        rcases insertIntoGroups_cases hq with h1 | h1 | ⟨s2, hs2, _, _⟩
        · exact hs.1 q h1
        · rw [h1.1]; exact hG.lt_of_gt hcmp
        · exact hs.1 (q.1, s2) hs2

theorem WF_new (cmpG : RCmp G) (cmpE : RCmp E) (f : E → G) :
    WF cmpG cmpE (SortedGroups.new f) := by
  constructor <;> simp [SortedGroups.new, WF]

theorem WF_insert (hG : LawfulCmp cmpG) (hE : LawfulCmp cmpE)
    {s : SortedGroups G E} (hwf : WF cmpG cmpE s) :
    WF cmpG cmpE (s.insert cmpG cmpE e) := by
  obtain ⟨hkeys, hsets⟩ := hwf
  constructor
  · exact insertIntoGroups_keys_pairwise hG hkeys
  · intro p hp
    rcases insertIntoGroups_cases hp with h1 | h1 | ⟨s2, hs2, _, he2⟩
    · exact hsets p h1
    · rw [h1.2]; simp [setInsert]
    · rw [he2]; exact setInsert_pairwise hE (hsets (p.1, s2) hs2)

theorem KeyInv_new (cmpG : RCmp G) (f : E → G) :
    KeyInv cmpG (SortedGroups.new f) := by
  intro p hp; cases hp

theorem KeyInv_insert (hG : LawfulCmp cmpG) {cmpE : RCmp E}
    {s : SortedGroups G E} {e : E} (hk : KeyInv cmpG s) :
    KeyInv cmpG (s.insert cmpG cmpE e) := by
  intro p hp x hx
  rcases insertIntoGroups_cases hp with h1 | h1 | ⟨s2, hs2, hq2, he2⟩
  · exact hk p h1 x hx
  · rw [h1.2] at hx
    rcases setInsert_subset hx with h2 | h2
    · rw [h2, h1.1]
      exact hG.refl _
    · cases h2
  · rw [he2] at hx
    rcases setInsert_subset hx with h2 | h2
    · rw [h2]; exact hq2
    · exact hk (p.1, s2) hs2 x h2

theorem insertIntoGroups_map_len (hG : LawfulCmp cmpG) (hE : LawfulCmp cmpE)
    (hkeys : gs.Pairwise (fun p q => cmpG p.1 q.1 = Ordering.lt))
    (hsets : ∀ p ∈ gs, p.2.Pairwise (fun a b => cmpE a b = Ordering.lt)) :
    ((insertIntoGroups cmpG cmpE key e gs).map (fun v => v.2.length)).sum =
      if gs.any (fun p => cmpG (key e) p.1 == Ordering.eq &&
          p.2.any (fun y => cmpE e y == Ordering.eq)) then
        (gs.map (fun v => v.2.length)).sum
      else (gs.map (fun v => v.2.length)).sum + 1 := by
  induction gs with
  | nil => simp [insertIntoGroups, setInsert]
  | cons q gs ih =>
      obtain ⟨k, s⟩ := q
      rw [List.pairwise_cons] at hkeys
      cases hcmp : cmpG (key e) k <;> simp only [insertIntoGroups, hcmp]
      · have hany : ((k, s) :: gs).any (fun p => cmpG (key e) p.1 == Ordering.eq &&
            p.2.any (fun y => cmpE e y == Ordering.eq)) = false := by
          simp only [List.any_eq_false, Bool.and_eq_true, not_and, ordering_beq_iff]
          intro p hp hpk
          rcases List.mem_cons.mp hp with h1 | h1
          · rw [h1] at hpk; simp at hpk; rw [hpk] at hcmp; cases hcmp
          · have h2 : cmpG (key e) p.1 = Ordering.lt :=
              hG.lt_trans hcmp (hkeys.1 p h1)
            rw [hpk] at h2; cases h2
        rw [hany]
        simp [setInsert]
        omega
      · have hself : (cmpG (key e) k == Ordering.eq) = true := by
          rw [hcmp]; rfl
        have hrest : ∀ p ∈ gs, (cmpG (key e) p.1 == Ordering.eq) = false := by
          intro p hp
          have h2 : cmpG (key e) p.1 = Ordering.lt :=
            hG.lt_of_eq_of_lt hcmp (hkeys.1 p hp)
          rw [h2]; rfl
        have hsl := setInsert_length (e := e) hE (hsets (k, s) (List.mem_cons_self _ _))
        by_cases hin : (s.any fun y => cmpE e y == Ordering.eq) = true
        · have hany : ((k, s) :: gs).any (fun p => cmpG (key e) p.1 == Ordering.eq &&
              p.2.any (fun y => cmpE e y == Ordering.eq)) = true := by
            simp only [List.any_cons, Bool.or_eq_true, Bool.and_eq_true]
            exact Or.inl ⟨hself, hin⟩
          rw [hany]
          simp only [List.map_cons, List.sum_cons]
          rw [hsl, hin]
          simp
        · have hany : ((k, s) :: gs).any (fun p => cmpG (key e) p.1 == Ordering.eq &&
              p.2.any (fun y => cmpE e y == Ordering.eq)) = false := by
            simp only [List.any_cons, Bool.or_eq_false_iff, Bool.and_eq_false_iff]
            constructor
            · exact Or.inr (Bool.of_not_eq_true hin)
            · rw [List.any_eq_false]
              intro p hp
              simp [hrest p hp]
          rw [hany]
          simp only [List.map_cons, List.sum_cons]
          rw [hsl, Bool.of_not_eq_true hin]
          simp
          omega
      · have hhead : (cmpG (key e) k == Ordering.eq) = false := by rw [hcmp]; rfl
        simp only [List.any_cons, hhead, Bool.false_and, Bool.false_or,
          List.map_cons, List.sum_cons]
        rw [ih hkeys.2 (fun p hp => hsets p (List.mem_cons_of_mem _ hp))]
        by_cases hany : (gs.any fun p => cmpG (key e) p.1 == Ordering.eq &&
            p.2.any fun y => cmpE e y == Ordering.eq) = true
        · rw [hany]; simp
        · rw [Bool.of_not_eq_true hany]; simp; ring

theorem insertIntoGroups_length (hG : LawfulCmp cmpG)
    (hkeys : gs.Pairwise (fun p q => cmpG p.1 q.1 = Ordering.lt)) :
    (insertIntoGroups cmpG cmpE key e gs).length =
      if gs.any (fun p => cmpG (key e) p.1 == Ordering.eq) then gs.length
      else gs.length + 1 := by
  induction gs with
  | nil => simp [insertIntoGroups]
  | cons q gs ih =>
      obtain ⟨k, s⟩ := q
      rw [List.pairwise_cons] at hkeys
      cases hcmp : cmpG (key e) k <;> simp only [insertIntoGroups, hcmp]
      · have hany : ((k, s) :: gs).any (fun p => cmpG (key e) p.1 == Ordering.eq) = false := by
          simp only [List.any_eq_false, ordering_beq_iff]
          intro p hp
          rcases List.mem_cons.mp hp with h1 | h1
          · rw [h1]; rw [hcmp]; intro hx; cases hx
          · have h2 : cmpG (key e) p.1 = Ordering.lt :=
              hG.lt_trans hcmp (hkeys.1 p h1)
            rw [h2]; intro hx; cases hx
        rw [hany]; simp
      · have hany : ((k, s) :: gs).any (fun p => cmpG (key e) p.1 == Ordering.eq) = true := by
          simp only [List.any_cons, Bool.or_eq_true, ordering_beq_iff]
          exact Or.inl hcmp
        rw [hany]; simp
      · have hhead : (cmpG (key e) k == Ordering.eq) = false := by rw [hcmp]; rfl
        simp only [List.any_cons, hhead, Bool.false_or, List.length_cons]
        rw [ih hkeys.2]
        by_cases hany : (gs.any fun p => cmpG (key e) p.1 == Ordering.eq) = true
        · rw [hany]; simp
        · rw [Bool.of_not_eq_true hany]; simp

theorem insertIntoGroups_find_ne (hG : LawfulCmp cmpG) {g : G}
    (hneq : ¬cmpG g (key e) = Ordering.eq) :
    (insertIntoGroups cmpG cmpE key e gs).find?
        (fun p => cmpG g p.1 == Ordering.eq) =
      gs.find? (fun p => cmpG g p.1 == Ordering.eq) := by
  induction gs with
  | nil =>
      have hgk : (cmpG g (key e) == Ordering.eq) = false := by
        cases hx : cmpG g (key e)
        · rfl
        · exact absurd hx hneq
        · rfl
      simp [insertIntoGroups, List.find?, hgk]
  | cons q gs ih =>
      obtain ⟨k, s⟩ := q
      cases hcmp : cmpG (key e) k <;> simp only [insertIntoGroups, hcmp]
      · have hgk : (cmpG g (key e) == Ordering.eq) = false := by
          cases hx : cmpG g (key e)
          · rfl
          · exact absurd hx hneq
          · rfl
        rw [List.find?_cons, hgk]
      · have hgkk : (cmpG g k == Ordering.eq) = false := by
          cases hx : cmpG g k
          · rfl
          · exact absurd (hG.eq_trans hx (hG.eq_symm hcmp)) hneq
          · rfl
        rw [List.find?_cons, List.find?_cons, hgkk]
      · rw [List.find?_cons, List.find?_cons]
        cases hx : (cmpG g k == Ordering.eq)
        · exact ih
        · rfl

end GroupInsertLemmas

/-- `SortedGroupsIter.toList` satisfies the step recurrence of `next`:
it is empty exactly when `next` yields nothing, and otherwise starts with
the pair `next` yields, followed by the successor state's sequence. So it
is the full sequence of pairs obtained by repeatedly calling `next`. -/
theorem SortedGroupsIter.toList_next : ∀ it : SortedGroupsIter G E,
    it.toList = it.next.elim [] (fun x => x.1 :: x.2.toList)
  | { groups_iter := gs, current_group := none } => by
      simp [toList, next]
  | { groups_iter := gs, current_group := some (g, e :: rest) } => by
      simp [toList, next]
  | { groups_iter := [], current_group := some (g, []) } => by
      simp [toList, next]
  | { groups_iter := (g2, v2) :: gs2, current_group := some (g, []) } => by
      have ih := toList_next { groups_iter := gs2, current_group := some (g2, v2) }
      rw [show SortedGroupsIter.next
          { groups_iter := (g2, v2) :: gs2, current_group := some (g, []) } =
          SortedGroupsIter.next { groups_iter := gs2, current_group := some (g2, v2) }
        from by rw [next], ← ih]
      simp [toList]
termination_by it => it.groups_iter.length

/-- The sequence `iter()` yields is the flattened stored content. -/
theorem iter_toList_eq_flatten (s : SortedGroups G E) :
    s.iter.toList = s.flatten := by
  cases hgs : s.groups with
  | nil => simp [SortedGroups.iter, SortedGroupsIter.toList, SortedGroups.flatten, hgs]
  | cons q rest =>
      obtain ⟨g, v⟩ := q
      simp [SortedGroups.iter, SortedGroupsIter.toList, SortedGroups.flatten, hgs]

/-- `len()` counts exactly the pairs of the flattened content. -/
theorem len_eq_flatten_length (s : SortedGroups G E) :
    s.len = s.flatten.length := by
  simp [SortedGroups.len, SortedGroups.flatten, List.length_flatMap,
    Function.comp_def, List.length_map]

/-- Under the representation invariant the flattened content is strictly
ascending in the lexicographic (group-key, element) order. -/
theorem flatten_pairwise {cmpG : RCmp G} {cmpE : RCmp E} (hG : LawfulCmp cmpG)
    {s : SortedGroups G E} (hwf : WF cmpG cmpE s) :
    s.flatten.Pairwise (fun p q =>
      cmpG p.1 q.1 = Ordering.lt ∨
        (cmpG p.1 q.1 = Ordering.eq ∧ cmpE p.2 q.2 = Ordering.lt)) := by
  obtain ⟨hkeys, hsets⟩ := hwf
  rw [SortedGroups.flatten, List.pairwise_flatMap]
  constructor
  · intro p hp
    rw [List.pairwise_map]
    refine List.Pairwise.imp ?_ (hsets p hp)
    intro a b hab
    exact Or.inr ⟨hG.refl p.1, hab⟩
  · refine List.Pairwise.imp ?_ hkeys
    intro p q hpq x hx y hy
    rcases List.mem_map.mp hx with ⟨a, _, hax⟩
    rcases List.mem_map.mp hy with ⟨b, _, hby⟩
    rw [← hax, ← hby]
    exact Or.inl hpq

section LoopLemmas

variable {cmpG : RCmp G} {cmpE : RCmp E}

theorem loop_append (s : SortedGroups G E) (xs : List E) (x : E) :
    SortedGroups.from_iter.loop cmpG cmpE s (xs ++ [x]) =
      (SortedGroups.from_iter.loop cmpG cmpE s xs).insert cmpG cmpE x := by
  induction xs generalizing s with
  | nil => rfl
  | cons y ys ih =>
      rw [List.cons_append, SortedGroups.from_iter.loop, SortedGroups.from_iter.loop,
        ih]

theorem loop_group_from_element (s : SortedGroups G E) (xs : List E) :
    (SortedGroups.from_iter.loop cmpG cmpE s xs).group_from_element =
      s.group_from_element := by
  induction xs generalizing s with
  | nil => rfl
  | cons y ys ih =>
      rw [SortedGroups.from_iter.loop, ih]
      rfl

theorem WF_loop (hG : LawfulCmp cmpG) (hE : LawfulCmp cmpE)
    {s : SortedGroups G E} (hwf : WF cmpG cmpE s) (xs : List E) :
    WF cmpG cmpE (SortedGroups.from_iter.loop cmpG cmpE s xs) := by
  induction xs generalizing s with
  | nil => exact hwf
  | cons y ys ih => exact ih (WF_insert hG hE hwf)

theorem WF_from_iter (hG : LawfulCmp cmpG) (hE : LawfulCmp cmpE)
    (xs : List E) (f : E → G) :
    WF cmpG cmpE (SortedGroups.from_iter cmpG cmpE xs f) :=
  WF_loop hG hE (WF_new cmpG cmpE f) xs

theorem KeyInv_loop (hG : LawfulCmp cmpG)
    {s : SortedGroups G E} (hk : KeyInv cmpG s) (xs : List E) :
    KeyInv cmpG (SortedGroups.from_iter.loop cmpG cmpE s xs) := by
  induction xs generalizing s with
  | nil => exact hk
  | cons y ys ih => exact ih (KeyInv_insert hG hk)

theorem KeyInv_from_iter (hG : LawfulCmp cmpG) (xs : List E) (f : E → G) :
    KeyInv cmpG (SortedGroups.from_iter cmpG cmpE xs f) :=
  KeyInv_loop hG (KeyInv_new cmpG f) xs

end LoopLemmas

section MembershipLemmas

variable {cmpG : RCmp G} {cmpE : RCmp E} {key : E → G} {e x : E} {g : G}
variable {gs : List (G × List E)}

/-- Observable membership after a map-level insert: a pair (`Equal`-key
group, `Equal` element) is found afterwards exactly when it was found
before, or it is the inserted element in its derived key's group. -/
theorem exists_eq_insertIntoGroups (hG : LawfulCmp cmpG) (hE : LawfulCmp cmpE)
    (hkeys : gs.Pairwise (fun p q => cmpG p.1 q.1 = Ordering.lt)) :
    (∃ p ∈ insertIntoGroups cmpG cmpE key e gs,
        cmpG g p.1 = Ordering.eq ∧ ∃ y ∈ p.2, cmpE x y = Ordering.eq) ↔
      ((∃ p ∈ gs, cmpG g p.1 = Ordering.eq ∧ ∃ y ∈ p.2, cmpE x y = Ordering.eq) ∨
        (cmpG g (key e) = Ordering.eq ∧ cmpE x e = Ordering.eq)) := by
  induction gs with
  | nil =>
      simp only [insertIntoGroups, List.mem_singleton, setInsert]
      constructor
      · rintro ⟨p, hp, hgp, y, hy, hxy⟩
        rw [hp] at hgp hy
        simp only [List.mem_singleton] at hy
        exact Or.inr ⟨hgp, hy ▸ hxy⟩
      · rintro (⟨p, hp, _⟩ | ⟨hg1, hx1⟩)
        · cases hp
        · exact ⟨(key e, [e]), rfl, hg1, e, List.mem_singleton.mpr rfl, hx1⟩
  | cons q gs ih =>
      obtain ⟨k, s⟩ := q
      rw [List.pairwise_cons] at hkeys
      cases hcmp : cmpG (key e) k <;> simp only [insertIntoGroups, hcmp]
      · constructor
        · rintro ⟨p, hp, hgp, y, hy, hxy⟩
          rcases List.mem_cons.mp hp with h1 | h1
          · rw [h1] at hgp hy
            simp only [setInsert, List.mem_singleton] at hy
            exact Or.inr ⟨hgp, hy ▸ hxy⟩
          · exact Or.inl ⟨p, h1, hgp, y, hy, hxy⟩
        · rintro (⟨p, hp, hgp, y, hy, hxy⟩ | ⟨hg1, hx1⟩)
          · exact ⟨p, List.mem_cons_of_mem _ hp, hgp, y, hy, hxy⟩
          · exact ⟨(key e, setInsert cmpE e []), List.mem_cons_self _ _, hg1, e,
              by simp [setInsert], hx1⟩
      · constructor
        · rintro ⟨p, hp, hgp, y, hy, hxy⟩
          rcases List.mem_cons.mp hp with h1 | h1
          · rw [h1] at hgp hy
            rcases (exists_eq_setInsert (q := x) hE).mp ⟨y, hy, hxy⟩ with h2 | h2
            · exact Or.inl ⟨(k, s), List.mem_cons_self _ _, hgp, h2⟩
            · exact Or.inr ⟨hG.eq_trans hgp (hG.eq_symm hcmp), h2⟩
          · exact Or.inl ⟨p, List.mem_cons_of_mem _ h1, hgp, y, hy, hxy⟩
        · rintro (⟨p, hp, hgp, y, hy, hxy⟩ | ⟨hg1, hx1⟩)
          · rcases List.mem_cons.mp hp with h1 | h1
            · refine ⟨(k, setInsert cmpE e s), List.mem_cons_self _ _, ?_, ?_⟩
              · rw [h1] at hgp; exact hgp
              · refine (exists_eq_setInsert hE).mpr (Or.inl ?_)
                rw [h1] at hy; exact ⟨y, hy, hxy⟩
            · exact ⟨p, List.mem_cons_of_mem _ h1, hgp, y, hy, hxy⟩
          · refine ⟨(k, setInsert cmpE e s), List.mem_cons_self _ _,
              hG.eq_trans hg1 hcmp, (exists_eq_setInsert hE).mpr (Or.inr hx1)⟩
      · constructor
        · rintro ⟨p, hp, hgp, y, hy, hxy⟩
          rcases List.mem_cons.mp hp with h1 | h1
          · exact Or.inl ⟨p, h1 ▸ List.mem_cons_self _ _, hgp, y, hy, hxy⟩
          · rcases (ih hkeys.2).mp ⟨p, h1, hgp, y, hy, hxy⟩ with h2 | h2
            · rcases h2 with ⟨p2, hp2, h3⟩
              exact Or.inl ⟨p2, List.mem_cons_of_mem _ hp2, h3⟩
            · exact Or.inr h2
        · rintro (⟨p, hp, hgp, y, hy, hxy⟩ | ⟨hg1, hx1⟩)
          · rcases List.mem_cons.mp hp with h1 | h1
            · exact ⟨p, h1 ▸ List.mem_cons_self _ _, hgp, y, hy, hxy⟩
            · rcases (ih hkeys.2).mpr (Or.inl ⟨p, h1, hgp, y, hy, hxy⟩) with
                ⟨p2, hp2, h3⟩
              exact ⟨p2, List.mem_cons_of_mem _ hp2, h3⟩
          · rcases (ih hkeys.2).mpr (Or.inr ⟨hg1, hx1⟩) with ⟨p2, hp2, h3⟩
            exact ⟨p2, List.mem_cons_of_mem _ hp2, h3⟩

/-- Observable element membership (in any group) after a map-level
insert. -/
theorem exists_elem_insertIntoGroups (hE : LawfulCmp cmpE) :
    (∃ p ∈ insertIntoGroups cmpG cmpE key e gs, ∃ y ∈ p.2, cmpE x y = Ordering.eq) ↔
      ((∃ p ∈ gs, ∃ y ∈ p.2, cmpE x y = Ordering.eq) ∨ cmpE x e = Ordering.eq) := by
  induction gs with
  | nil =>
      simp only [insertIntoGroups, List.mem_singleton, setInsert]
      constructor
      · rintro ⟨p, hp, y, hy, hxy⟩
        rw [hp] at hy
        simp only [List.mem_singleton] at hy
        exact Or.inr (hy ▸ hxy)
      · rintro (⟨p, hp, _⟩ | hx1)
        · cases hp
        · exact ⟨(key e, [e]), rfl, e, List.mem_singleton.mpr rfl, hx1⟩
  | cons q gs ih =>
      obtain ⟨k, s⟩ := q
      cases hcmp : cmpG (key e) k <;> simp only [insertIntoGroups, hcmp]
      · constructor
        · rintro ⟨p, hp, y, hy, hxy⟩
          rcases List.mem_cons.mp hp with h1 | h1
          · rw [h1] at hy
            simp only [setInsert, List.mem_singleton] at hy
            exact Or.inr (hy ▸ hxy)
          · exact Or.inl ⟨p, h1, y, hy, hxy⟩
        · rintro (⟨p, hp, y, hy, hxy⟩ | hx1)
          · exact ⟨p, List.mem_cons_of_mem _ hp, y, hy, hxy⟩
          · exact ⟨(key e, setInsert cmpE e []), List.mem_cons_self _ _, e,
              by simp [setInsert], hx1⟩
      · constructor
        · rintro ⟨p, hp, y, hy, hxy⟩
          rcases List.mem_cons.mp hp with h1 | h1
          · rw [h1] at hy
            rcases (exists_eq_setInsert (q := x) hE).mp ⟨y, hy, hxy⟩ with h2 | h2
            · exact Or.inl ⟨(k, s), List.mem_cons_self _ _, h2⟩
            · exact Or.inr h2
          · exact Or.inl ⟨p, List.mem_cons_of_mem _ h1, y, hy, hxy⟩
        · rintro (⟨p, hp, y, hy, hxy⟩ | hx1)
          · rcases List.mem_cons.mp hp with h1 | h1
            · refine ⟨(k, setInsert cmpE e s), List.mem_cons_self _ _, ?_⟩
              refine (exists_eq_setInsert hE).mpr (Or.inl ?_)
              rw [h1] at hy; exact ⟨y, hy, hxy⟩
            · exact ⟨p, List.mem_cons_of_mem _ h1, y, hy, hxy⟩
          · exact ⟨(k, setInsert cmpE e s), List.mem_cons_self _ _,
              (exists_eq_setInsert hE).mpr (Or.inr hx1)⟩
      · constructor
        · rintro ⟨p, hp, y, hy, hxy⟩
          rcases List.mem_cons.mp hp with h1 | h1
          · exact Or.inl ⟨p, h1 ▸ List.mem_cons_self _ _, y, hy, hxy⟩
          · rcases ih.mp ⟨p, h1, y, hy, hxy⟩ with h2 | h2
            · rcases h2 with ⟨p2, hp2, h3⟩
              exact Or.inl ⟨p2, List.mem_cons_of_mem _ hp2, h3⟩
            · exact Or.inr h2
        · rintro (⟨p, hp, y, hy, hxy⟩ | hx1)
          · rcases List.mem_cons.mp hp with h1 | h1
            · exact ⟨p, h1 ▸ List.mem_cons_self _ _, y, hy, hxy⟩
            · rcases ih.mpr (Or.inl ⟨p, h1, y, hy, hxy⟩) with ⟨p2, hp2, h3⟩
              exact ⟨p2, List.mem_cons_of_mem _ hp2, h3⟩
          · rcases ih.mpr (Or.inr hx1) with ⟨p2, hp2, h3⟩
            exact ⟨p2, List.mem_cons_of_mem _ hp2, h3⟩

/-- Inserting an element whose class is already present in its derived
key's group leaves the map unchanged: the earlier stored element is
retained and the later insertion is dropped. -/
theorem insertIntoGroups_eq_self (hG : LawfulCmp cmpG) (hE : LawfulCmp cmpE)
    (hkeys : gs.Pairwise (fun p q => cmpG p.1 q.1 = Ordering.lt))
    (hsets : ∀ p ∈ gs, p.2.Pairwise (fun a b => cmpE a b = Ordering.lt))
    (hy : ∃ p ∈ gs, cmpG (key e) p.1 = Ordering.eq ∧
      ∃ y ∈ p.2, cmpE e y = Ordering.eq) :
    insertIntoGroups cmpG cmpE key e gs = gs := by
  induction gs with
  | nil => rcases hy with ⟨p, hp, _⟩; cases hp
  | cons q gs ih =>
      obtain ⟨k, s⟩ := q
      rw [List.pairwise_cons] at hkeys
      rcases hy with ⟨p, hp, hkp, hyp⟩
      rcases List.mem_cons.mp hp with h1 | h1
      · have hek : cmpG (key e) k = Ordering.eq := by rw [h1] at hkp; exact hkp
        simp only [insertIntoGroups, hek]
        rw [setInsert_eq_self hE (hsets (k, s) (List.mem_cons_self _ _)) ?_]
        rw [h1] at hyp
        exact hyp
      · have hgt : cmpG (key e) k = Ordering.gt := by
          have h2 : cmpG p.1 k = Ordering.gt := hG.gt_of_lt (hkeys.1 p h1)
          rw [hG.congr_left hkp, h2]
        simp only [insertIntoGroups, hgt]
        rw [ih hkeys.2 (fun p2 hp2 => hsets p2 (List.mem_cons_of_mem _ hp2))
          ⟨p, h1, hkp, hyp⟩]

end MembershipLemmas

section ContainerLemmas

variable {cmpG : RCmp G} {cmpE : RCmp E}

theorem holds_iff_any (s : SortedGroups G E) (g : G) (x : E) :
    s.holds cmpG cmpE g x ↔
      (s.groups.any (fun p => cmpG g p.1 == Ordering.eq &&
        p.2.any (fun y => cmpE x y == Ordering.eq))) = true := by
  simp [SortedGroups.holds, List.any_eq_true, Bool.and_eq_true, ordering_beq_iff]

theorem holds_insert (hG : LawfulCmp cmpG) (hE : LawfulCmp cmpE)
    {s : SortedGroups G E} (hwf : WF cmpG cmpE s) (g : G) (x e : E) :
    (s.insert cmpG cmpE e).holds cmpG cmpE g x ↔
      (s.holds cmpG cmpE g x ∨
        (cmpG g (s.group_from_element e) = Ordering.eq ∧
          cmpE x e = Ordering.eq)) :=
  exists_eq_insertIntoGroups hG hE hwf.1

theorem holdsElem_insert (hE : LawfulCmp cmpE)
    (s : SortedGroups G E) (x e : E) :
    (s.insert cmpG cmpE e).holdsElem cmpE x ↔
      (s.holdsElem cmpE x ∨ cmpE x e = Ordering.eq) :=
  exists_elem_insertIntoGroups hE

theorem from_iter_append (xs : List E) (x : E) (f : E → G) :
    SortedGroups.from_iter cmpG cmpE (xs ++ [x]) f =
      (SortedGroups.from_iter cmpG cmpE xs f).insert cmpG cmpE x := by
  rw [SortedGroups.from_iter, SortedGroups.from_iter, loop_append]

theorem from_iter_group_from_element (xs : List E) (f : E → G) :
    (SortedGroups.from_iter cmpG cmpE xs f).group_from_element = f :=
  loop_group_from_element _ xs

theorem holds_from_iter (hG : LawfulCmp cmpG) (hE : LawfulCmp cmpE)
    (xs : List E) (f : E → G) (g : G) (x : E) :
    (SortedGroups.from_iter cmpG cmpE xs f).holds cmpG cmpE g x ↔
      ∃ e ∈ xs, cmpG g (f e) = Ordering.eq ∧ cmpE x e = Ordering.eq := by
  induction xs using List.reverseRecOn with
  | nil => simp [SortedGroups.from_iter, SortedGroups.from_iter.loop,
      SortedGroups.new, SortedGroups.holds]
  | append_singleton xs e ih =>
      rw [from_iter_append,
        holds_insert hG hE (WF_from_iter hG hE xs f) g x e,
        from_iter_group_from_element, ih]
      constructor
      · rintro (⟨e2, he2, h1, h2⟩ | ⟨h1, h2⟩)
        · exact ⟨e2, List.mem_append_left _ he2, h1, h2⟩
        · exact ⟨e, List.mem_append_right _ (List.mem_singleton.mpr rfl), h1, h2⟩
      · rintro ⟨e2, he2, h1, h2⟩
        rcases List.mem_append.mp he2 with h3 | h3
        · exact Or.inl ⟨e2, h3, h1, h2⟩
        · rw [List.mem_singleton.mp h3] at h1 h2
          exact Or.inr ⟨h1, h2⟩

theorem holdsElem_from_iter (hE : LawfulCmp cmpE)
    (xs : List E) (f : E → G) (x : E) :
    (SortedGroups.from_iter cmpG cmpE xs f).holdsElem cmpE x ↔
      ∃ e ∈ xs, cmpE x e = Ordering.eq := by
  induction xs using List.reverseRecOn with
  | nil => simp [SortedGroups.from_iter, SortedGroups.from_iter.loop,
      SortedGroups.new, SortedGroups.holdsElem]
  | append_singleton xs e ih =>
      rw [from_iter_append, holdsElem_insert hE, ih]
      constructor
      · rintro (⟨e2, he2, h2⟩ | h2)
        · exact ⟨e2, List.mem_append_left _ he2, h2⟩
        · exact ⟨e, List.mem_append_right _ (List.mem_singleton.mpr rfl), h2⟩
      · rintro ⟨e2, he2, h2⟩
        rcases List.mem_append.mp he2 with h3 | h3
        · exact Or.inl ⟨e2, h3, h2⟩
        · rw [List.mem_singleton.mp h3] at h2
          exact Or.inr h2

theorem len_insert (hG : LawfulCmp cmpG) (hE : LawfulCmp cmpE)
    {s : SortedGroups G E} (hwf : WF cmpG cmpE s) (e : E) :
    (s.insert cmpG cmpE e).len =
      if s.holds cmpG cmpE (s.group_from_element e) e then s.len
      else s.len + 1 := by
  have h := @insertIntoGroups_map_len G E cmpG cmpE s.group_from_element e
    s.groups hG hE hwf.1 hwf.2
  show ((insertIntoGroups cmpG cmpE s.group_from_element e s.groups).map
    (fun v => v.2.length)).sum = _
  rw [h]
  by_cases hh : s.holds cmpG cmpE (s.group_from_element e) e
  · rw [if_pos hh, if_pos ((holds_iff_any s _ e).mp hh)]
    rfl
  · rw [if_neg hh, if_neg (fun hc => hh ((holds_iff_any s _ e).mpr hc))]
    rfl

theorem groups_len_insert (hG : LawfulCmp cmpG)
    {s : SortedGroups G E} (hwf : WF cmpG cmpE s) (e : E) :
    (s.insert cmpG cmpE e).groups_len =
      if s.hasKey cmpG (s.group_from_element e) then s.groups_len
      else s.groups_len + 1 := by
  have h := @insertIntoGroups_length G E cmpG cmpE s.group_from_element e
    s.groups hG hwf.1
  show (insertIntoGroups cmpG cmpE s.group_from_element e s.groups).length = _
  rw [h]
  rfl

theorem findGroup_insert_ne (hG : LawfulCmp cmpG)
    (s : SortedGroups G E) (e : E) {g : G}
    (hne : ¬cmpG g (s.group_from_element e) = Ordering.eq) :
    (s.insert cmpG cmpE e).findGroup cmpG g = s.findGroup cmpG g := by
  show ((insertIntoGroups cmpG cmpE s.group_from_element e s.groups).find?
    (fun p => cmpG g p.1 == Ordering.eq)).map Prod.snd = _
  rw [insertIntoGroups_find_ne hG hne]
  rfl

theorem insert_eq_self (hG : LawfulCmp cmpG) (hE : LawfulCmp cmpE)
    {s : SortedGroups G E} (hwf : WF cmpG cmpE s) {x : E}
    (hx : s.holds cmpG cmpE (s.group_from_element x) x) :
    s.insert cmpG cmpE x = s := by
  obtain ⟨gs, f⟩ := s
  simp only [SortedGroups.insert, SortedGroups.mk.injEq, and_true]
  exact insertIntoGroups_eq_self hG hE hwf.1 hwf.2 hx

end ContainerLemmas

theorem lawful_natCmp : LawfulCmp natCmp :=
  lawfulCmp_compare

theorem lawfulCmp_comp {α β : Type} (f : α → β) {cmp : RCmp β}
    (h : LawfulCmp cmp) : LawfulCmp (fun a b => cmp (f a) (f b)) := by
  constructor
  · intro a b; exact h.eq_swap (f a) (f b)
  · intro a b c hab hbc; exact h.lt_trans hab hbc
  · intro a b c hab hbc; exact h.lt_of_lt_of_eq hab hbc
  · intro a b c hab hbc; exact h.lt_of_eq_of_lt hab hbc
  · intro a b c hab hbc; exact h.eq_trans hab hbc

theorem lawful_pairFstCmp : LawfulCmp pairFstCmp :=
  lawfulCmp_comp Prod.fst lawful_natCmp

/-- Claim C1: for every (well-formed, as every reachable container is)
container, the sequence `iter()` yields — `toList`, pinned to repeated
calls of `SortedGroupsIter.next` by the first conjunct — is exactly the
concatenation of the stored groups' element sequences in stored order,
each element paired with its group key, and that sequence is strictly
ascending in the lexicographic (group-key, element) order; hence it covers
every stored element exactly once, group-major in ascending key order and
element-minor in ascending element order. -/
theorem C1_iter_flattened_ascending {cmpG : RCmp G} {cmpE : RCmp E}
    (hG : LawfulCmp cmpG) {s : SortedGroups G E} (hwf : WF cmpG cmpE s) :
    (∀ it : SortedGroupsIter G E,
        it.toList = it.next.elim [] (fun x => x.1 :: x.2.toList)) ∧
      s.iter.toList = s.flatten ∧
      s.iter.toList.Pairwise (fun p q =>
        cmpG p.1 q.1 = Ordering.lt ∨
          (cmpG p.1 q.1 = Ordering.eq ∧ cmpE p.2 q.2 = Ordering.lt)) := by
  refine ⟨SortedGroupsIter.toList_next, iter_toList_eq_flatten s, ?_⟩
  rw [iter_toList_eq_flatten s]
  exact flatten_pairwise hG hwf

theorem C1_witness :
    WF natCmp natCmp (SortedGroups.from_iter natCmp natCmp [4, 1, 2]
      (fun e => e / 3)) ∧
    (SortedGroups.from_iter natCmp natCmp [4, 1, 2] (fun e => e / 3)).iter.toList
      = (SortedGroups.from_iter natCmp natCmp [4, 1, 2] (fun e => e / 3)).flatten :=
  ⟨by decide,
    (@C1_iter_flattened_ascending Nat Nat natCmp natCmp lawful_natCmp
      (SortedGroups.from_iter natCmp natCmp [4, 1, 2] (fun e => e / 3))
      (by decide)).2.1⟩

/-- Claim C6: bulk construction by `from_iter` produces the same container
as `new` followed by a single-element `insert` of every input element in
input order. -/
theorem C6_from_iter_eq_repeated_insert (cmpG : RCmp G) (cmpE : RCmp E)
    (xs : List E) (f : E → G) :
    SortedGroups.from_iter cmpG cmpE xs f =
      xs.foldl (fun s e => s.insert cmpG cmpE e) (SortedGroups.new f) := by
  rw [SortedGroups.from_iter]
  generalize SortedGroups.new f = s
  induction xs generalizing s with
  | nil => rfl
  | cons y ys ih =>
      rw [SortedGroups.from_iter.loop, List.foldl_cons, ih]

/-- Claim C7: `get(index)` returns the (group-key, element) pair at the
given zero-based position of the flattened traversal, and returns `none`
(signals absence, no panic is modelled) exactly when `index ≥ len()`. -/
theorem C7_get_positional (s : SortedGroups G E) (i : Nat) :
    s.get i = s.flatten.get? i ∧ (s.get i = none ↔ s.len ≤ i) := by
  constructor
  · rw [SortedGroups.get, iter_toList_eq_flatten]
  · rw [SortedGroups.get, iter_toList_eq_flatten, len_eq_flatten_length]
    exact List.get?_eq_none

/-- Claim C8: the freshly constructed empty container has `len() == 0`,
`groups_len() == 0`, `is_empty() == true`, and the first call to `next()`
on its `iter()` immediately yields nothing. -/
theorem C8_empty_container (f : E → G) :
    (SortedGroups.new f).len = 0 ∧
      (SortedGroups.new f).groups_len = 0 ∧
      (SortedGroups.new f).is_empty = true ∧
      (SortedGroups.new f).iter.next = none := by
  refine ⟨rfl, rfl, rfl, ?_⟩
  show SortedGroupsIter.next { groups_iter := [], current_group := none } = none
  rw [SortedGroupsIter.next]

/-- Claim C9: with a lawful key order, every stored element lies in the
group of its own derived key (the derived key compares `Equal` to the
stored group key): this holds for `new`, is preserved by every `insert`,
and consequently holds for `from_iter`, i.e. after any sequence of the
container's operations with a fixed key function. -/
theorem C9_key_invariant {cmpG : RCmp G} (cmpE : RCmp E)
    (hG : LawfulCmp cmpG) :
    (∀ f : E → G, KeyInv cmpG (SortedGroups.new f)) ∧
      (∀ (s : SortedGroups G E) (e : E), KeyInv cmpG s →
        KeyInv cmpG (s.insert cmpG cmpE e)) ∧
      (∀ (xs : List E) (f : E → G),
        KeyInv cmpG (SortedGroups.from_iter cmpG cmpE xs f)) :=
  ⟨fun f => KeyInv_new cmpG f, fun _ _ hk => KeyInv_insert hG hk,
    fun xs f => KeyInv_from_iter hG xs f⟩

theorem C9_witness :
    KeyInv natCmp (SortedGroups.from_iter natCmp natCmp [4, 1, 2]
      (fun e => e % 3)) :=
  (C9_key_invariant natCmp lawful_natCmp).2.2 [4, 1, 2] (fun e => e % 3)

/-- Claim C2 counterexample: starting from the empty container keyed by
the first component, insert the element (5, 1) and then the order-equal
element (5, 2) (they compare `Equal` under `pairFstCmp`, which ignores the
tag in the second component). The claim says the later insertion (5, 2) is
retained and the earlier (5, 1) discarded; evaluating the code shows the
group still holds exactly the earlier element (5, 1) — `BTreeSet::insert`
keeps the existing element and drops the new one. -/
theorem C2_counterexample :
    (((SortedGroups.new Prod.fst).insert natCmp pairFstCmp (5, 1)).insert
        natCmp pairFstCmp (5, 2)).groups = [(5, [(5, 1)])] := by
  decide

/-- Claim C2, amended as the counterexample forces: inserting an element x
order-equal to an element y already present in x's group leaves the
container unchanged — the earlier insertion y is retained and the later
insertion x is discarded (first write wins, per `BTreeSet::insert`). -/
theorem C2_amended_first_wins {cmpG : RCmp G} {cmpE : RCmp E}
    (hG : LawfulCmp cmpG) (hE : LawfulCmp cmpE)
    {s : SortedGroups G E} (hwf : WF cmpG cmpE s) {x : E}
    (hx : s.holds cmpG cmpE (s.group_from_element x) x) :
    s.insert cmpG cmpE x = s :=
  insert_eq_self hG hE hwf hx

theorem C2_witness :
    WF natCmp pairFstCmp
      (SortedGroups.from_iter natCmp pairFstCmp [(5, 1)] Prod.fst) ∧
    (SortedGroups.from_iter natCmp pairFstCmp [(5, 1)] Prod.fst).holds natCmp
      pairFstCmp
      ((SortedGroups.from_iter natCmp pairFstCmp [(5, 1)]
        Prod.fst).group_from_element (5, 2)) (5, 2) ∧
    (SortedGroups.from_iter natCmp pairFstCmp [(5, 1)] Prod.fst).insert natCmp
        pairFstCmp (5, 2) =
      SortedGroups.from_iter natCmp pairFstCmp [(5, 1)] Prod.fst :=
  ⟨by decide, by decide,
    C2_amended_first_wins lawful_natCmp lawful_pairFstCmp (by decide) (by decide)⟩

/-- Claim C4 counterexample: on a container already holding the element 5,
inserting 5 twice changes `len()` by 0, not by the exactly 1 the claim
asserts for every container. -/
theorem C4_counterexample :
    ¬((((SortedGroups.from_iter natCmp natCmp [5] (fun e => e)).insert natCmp
          natCmp 5).insert natCmp natCmp 5).len =
        (SortedGroups.from_iter natCmp natCmp [5] (fun e => e)).len + 1) ∧
    (((SortedGroups.from_iter natCmp natCmp [5] (fun e => e)).insert natCmp
        natCmp 5).insert natCmp natCmp 5).len =
      (SortedGroups.from_iter natCmp natCmp [5] (fun e => e)).len := by
  decide

/-- Claim C4, amended as the counterexample forces: inserting the same
element twice produces exactly the container of inserting it once (the
second insertion changes nothing, in particular never adds 2), and the two
insertions together change `len()` by exactly 1 when no element
order-equal to x was in x's group beforehand, and by 0 when one was. -/
theorem C4_amended_idempotent {cmpG : RCmp G} {cmpE : RCmp E}
    (hG : LawfulCmp cmpG) (hE : LawfulCmp cmpE)
    {s : SortedGroups G E} (hwf : WF cmpG cmpE s) (x : E) :
    (s.insert cmpG cmpE x).insert cmpG cmpE x = s.insert cmpG cmpE x ∧
      (¬s.holds cmpG cmpE (s.group_from_element x) x →
        (s.insert cmpG cmpE x).len = s.len + 1) ∧
      (s.holds cmpG cmpE (s.group_from_element x) x →
        (s.insert cmpG cmpE x).len = s.len) := by
  refine ⟨?_, ?_, ?_⟩
  · refine insert_eq_self hG hE (WF_insert hG hE hwf) ?_
    refine (holds_insert hG hE hwf _ x x).mpr (Or.inr ⟨hG.refl _, hE.refl x⟩)
  · intro hh
    rw [len_insert hG hE hwf x, if_neg hh]
  · intro hh
    rw [len_insert hG hE hwf x, if_pos hh]

theorem C4_witness :
    WF natCmp natCmp (SortedGroups.from_iter natCmp natCmp [3] (fun e => e)) ∧
    ((SortedGroups.from_iter natCmp natCmp [3] (fun e => e)).insert natCmp
        natCmp 5).insert natCmp natCmp 5 =
      (SortedGroups.from_iter natCmp natCmp [3] (fun e => e)).insert natCmp
        natCmp 5 ∧
    ((SortedGroups.from_iter natCmp natCmp [3] (fun e => e)).insert natCmp
      natCmp 5).len =
      (SortedGroups.from_iter natCmp natCmp [3] (fun e => e)).len + 1 :=
  ⟨by decide,
    (C4_amended_idempotent lawful_natCmp lawful_natCmp (by decide) 5).1,
    (C4_amended_idempotent lawful_natCmp lawful_natCmp (by decide) 5).2.1
      (by decide)⟩

/-- Claim C10 (frame property of `insert`): inserting x modifies at most
the group of x's derived key — looking up any key comparing non-`Equal` to
that derived key finds the identical group (same presence and same element
list) before and after — and `groups_len()` grows by exactly 1 when the
derived key was absent and by 0 when it was present. -/
theorem C10_insert_frame {cmpG : RCmp G} {cmpE : RCmp E}
    (hG : LawfulCmp cmpG) {s : SortedGroups G E} (hwf : WF cmpG cmpE s)
    (x : E) :
    (∀ g : G, ¬cmpG g (s.group_from_element x) = Ordering.eq →
        (s.insert cmpG cmpE x).findGroup cmpG g = s.findGroup cmpG g) ∧
      (s.insert cmpG cmpE x).groups_len =
        (if s.hasKey cmpG (s.group_from_element x) then s.groups_len
          else s.groups_len + 1) :=
  ⟨fun _ hg => findGroup_insert_ne hG s x hg, groups_len_insert hG hwf x⟩

theorem C10_witness :
    WF natCmp natCmp
      (SortedGroups.from_iter natCmp natCmp [1, 5] (fun e => e / 3)) ∧
    ¬natCmp 0 ((SortedGroups.from_iter natCmp natCmp [1, 5]
      (fun e => e / 3)).group_from_element 7) = Ordering.eq ∧
    ((SortedGroups.from_iter natCmp natCmp [1, 5] (fun e => e / 3)).insert
        natCmp natCmp 7).findGroup natCmp 0 =
      (SortedGroups.from_iter natCmp natCmp [1, 5]
        (fun e => e / 3)).findGroup natCmp 0 ∧
    ((SortedGroups.from_iter natCmp natCmp [1, 5] (fun e => e / 3)).insert
        natCmp natCmp 7).groups_len =
      (if (SortedGroups.from_iter natCmp natCmp [1, 5]
            (fun e => e / 3)).hasKey natCmp
          ((SortedGroups.from_iter natCmp natCmp [1, 5]
            (fun e => e / 3)).group_from_element 7) then
        (SortedGroups.from_iter natCmp natCmp [1, 5]
          (fun e => e / 3)).groups_len
      else (SortedGroups.from_iter natCmp natCmp [1, 5]
        (fun e => e / 3)).groups_len + 1) :=
  ⟨by decide, by decide,
    (C10_insert_frame lawful_natCmp (by decide) 7).1 0 (by decide),
    (C10_insert_frame lawful_natCmp (by decide) 7).2⟩

section DistinctCountLemmas

variable {cmpE : RCmp E}

theorem distinct_fold_any (hE : LawfulCmp cmpE) (xs : List E) :
    ∀ (acc : List E) (z : E),
    ((xs.foldl (fun acc x => if acc.any (fun y => cmpE x y == Ordering.eq)
        then acc else x :: acc) acc).any (fun y => cmpE z y == Ordering.eq)) =
      (acc.any (fun y => cmpE z y == Ordering.eq) ||
        xs.any (fun y => cmpE z y == Ordering.eq)) := by
  induction xs with
  | nil => intro acc z; simp
  | cons x xs ih =>
      intro acc z
      rw [List.foldl_cons, List.any_cons, ih]
      have hstep : ((if acc.any (fun y => cmpE x y == Ordering.eq) then acc
          else x :: acc).any (fun y => cmpE z y == Ordering.eq)) =
          (acc.any (fun y => cmpE z y == Ordering.eq) ||
            (cmpE z x == Ordering.eq)) := by
        by_cases h : acc.any (fun y => cmpE x y == Ordering.eq) = true
        · rw [if_pos h]
          cases hz : (cmpE z x == Ordering.eq)
          · simp
          · have hzx : cmpE z x = Ordering.eq := (ordering_beq_iff _ _).mp hz
            rcases List.any_eq_true.mp h with ⟨a, ha, hxa⟩
            have hza : cmpE z a = Ordering.eq :=
              hE.eq_trans hzx ((ordering_beq_iff _ _).mp hxa)
            have hacc : acc.any (fun y => cmpE z y == Ordering.eq) = true :=
              List.any_eq_true.mpr ⟨a, ha, (ordering_beq_iff _ _).mpr hza⟩
            rw [hacc]
            simp
        · rw [if_neg h, List.any_cons, Bool.or_comm]
      rw [hstep, Bool.or_assoc]

theorem distinctCount_append (hE : LawfulCmp cmpE) (xs : List E) (e : E) :
    distinctCount cmpE (xs ++ [e]) =
      distinctCount cmpE xs +
        (if xs.any (fun y => cmpE e y == Ordering.eq) then 0 else 1) := by
  rw [distinctCount, distinctCount, List.foldl_append, List.foldl_cons,
    List.foldl_nil]
  have h := distinct_fold_any hE xs [] e
  rw [List.any_nil, Bool.false_or] at h
  by_cases hc : (xs.any fun y => cmpE e y == Ordering.eq) = true
  · rw [if_pos hc]
    rw [hc] at h
    rw [if_pos h]
    rfl
  · have hcf : (xs.any fun y => cmpE e y == Ordering.eq) = false :=
      Bool.of_not_eq_true hc
    rw [if_neg hc]
    rw [hcf] at h
    rw [h]
    simp

end DistinctCountLemmas

theorem natCmp_eq_iff (a b : Nat) : natCmp a b = Ordering.eq ↔ a = b :=
  compare_eq_iff_eq

/-- Claim C3 counterexample: with elements compared on their first
component only (`pairFstCmp`) and the key function taking the second
component, the input [(0, 0), (0, 1)] holds two order-equal elements that
map to different group keys: the built container stores both (len() = 2),
while the number of distinct elements of the input under the element's
equality is 1. -/
theorem C3_counterexample :
    (SortedGroups.from_iter natCmp pairFstCmp [(0, 0), (0, 1)] Prod.snd).len = 2 ∧
      distinctCount pairFstCmp [(0, 0), (0, 1)] = 1 := by
  decide

/-- Claim C3, amended as the counterexample forces (restoring the spec's
"key-extractor-consistent" proviso): when the key function maps order-equal
elements to `Equal` keys, `len()` after bulk construction (equivalently,
by claim C6, after repeated insertion) equals the number of distinct
elements of the input under the element's equality. -/
theorem C3_amended_len_distinct {cmpG : RCmp G} {cmpE : RCmp E}
    (hG : LawfulCmp cmpG) (hE : LawfulCmp cmpE) (f : E → G)
    (hcons : ∀ x y, cmpE x y = Ordering.eq → cmpG (f x) (f y) = Ordering.eq)
    (xs : List E) :
    (SortedGroups.from_iter cmpG cmpE xs f).len = distinctCount cmpE xs := by
  induction xs using List.reverseRecOn with
  | nil => rfl
  | append_singleton xs x ih =>
      rw [from_iter_append, len_insert hG hE (WF_from_iter hG hE xs f) x,
        distinctCount_append hE xs x, ← ih, from_iter_group_from_element]
      by_cases hany : (xs.any fun y => cmpE x y == Ordering.eq) = true
      · rcases List.any_eq_true.mp hany with ⟨a, ha, hxa⟩
        have hxa2 : cmpE x a = Ordering.eq := (ordering_beq_iff _ _).mp hxa
        have hholds : (SortedGroups.from_iter cmpG cmpE xs f).holds cmpG cmpE
            (f x) x :=
          (holds_from_iter hG hE xs f (f x) x).mpr ⟨a, ha, hcons x a hxa2, hxa2⟩
        rw [if_pos hholds, if_pos hany]
        rfl
      · have hnot : ¬(SortedGroups.from_iter cmpG cmpE xs f).holds cmpG cmpE
            (f x) x := by
          intro hh
          rcases (holds_from_iter hG hE xs f (f x) x).mp hh with ⟨a, ha, _, hxa⟩
          exact hany (List.any_eq_true.mpr ⟨a, ha, (ordering_beq_iff _ _).mpr hxa⟩)
        rw [if_neg hnot, if_neg hany]

theorem C3_witness :
    (SortedGroups.from_iter natCmp natCmp [4, 1, 4, 2] (fun e => e / 3)).len =
      distinctCount natCmp [4, 1, 4, 2] :=
  C3_amended_len_distinct lawful_natCmp lawful_natCmp (fun e => e / 3)
    (fun x y hxy => by
      have h1 : x = y := (natCmp_eq_iff x y).mp hxy
      rw [h1]
      exact lawful_natCmp.refl (y / 3))
    [4, 1, 4, 2]

section ExtensionalityLemmas

variable {cmpG : RCmp G} {cmpE : RCmp E}

theorem setInsert_ne_nil (cmp : RCmp E) (e : E) (xs : List E) :
    setInsert cmp e xs ≠ [] := by
  cases xs with
  | nil => simp [setInsert]
  | cons x xs => cases hc : cmp e x <;> simp [setInsert, hc]

theorem nonNil_insert {s : SortedGroups G E}
    (hn : ∀ p ∈ s.groups, p.2 ≠ []) (e : E) :
    ∀ p ∈ (s.insert cmpG cmpE e).groups, p.2 ≠ [] := by
  intro p hp
  rcases insertIntoGroups_cases hp with h1 | h1 | ⟨s2, _, _, he2⟩
  · exact hn p h1
  · rw [h1.2]; exact setInsert_ne_nil _ _ _
  · rw [he2]; exact setInsert_ne_nil _ _ _

theorem nonNil_from_iter (xs : List E) (f : E → G) :
    ∀ p ∈ (SortedGroups.from_iter cmpG cmpE xs f).groups, p.2 ≠ [] := by
  induction xs using List.reverseRecOn with
  | nil => intro p hp; cases hp
  | append_singleton xs x ih =>
      rw [from_iter_append]
      exact nonNil_insert ih x

/-- Two strictly sorted lists with the same `Equal`-classes of members are
equal as Rust `==` observes them. -/
theorem listEqBy_of_exists (hE : LawfulCmp cmpE) :
    ∀ (xs ys : List E),
      xs.Pairwise (fun a b => cmpE a b = Ordering.lt) →
      ys.Pairwise (fun a b => cmpE a b = Ordering.lt) →
      (∀ z, (∃ a ∈ xs, cmpE z a = Ordering.eq) ↔
        (∃ a ∈ ys, cmpE z a = Ordering.eq)) →
      listEqBy cmpE xs ys = true := by
  intro xs
  induction xs with
  | nil =>
      intro ys _ _ hmem
      cases ys with
      | nil => rfl
      | cons b ys =>
          exfalso
          rcases (hmem b).mpr ⟨b, List.mem_cons_self b ys, hE.refl b⟩ with
            ⟨a, ha, _⟩
          cases ha
  | cons a xs ih =>
      intro ys hxs hys hmem
      cases ys with
      | nil =>
          exfalso
          rcases (hmem a).mp ⟨a, List.mem_cons_self a xs, hE.refl a⟩ with
            ⟨c, hc, _⟩
          cases hc
      | cons b ys =>
          rw [List.pairwise_cons] at hxs hys
          have hab : cmpE a b = Ordering.eq := by
            rcases (hmem a).mp ⟨a, List.mem_cons_self a xs, hE.refl a⟩ with
              ⟨a2, ha2, heq2⟩
            rcases List.mem_cons.mp ha2 with h1 | h1
            · rw [h1] at heq2; exact heq2
            · rcases (hmem b).mpr ⟨b, List.mem_cons_self b ys, hE.refl b⟩ with
                ⟨b2, hb2, heqb⟩
              rcases List.mem_cons.mp hb2 with h2 | h2
              · rw [h2] at heqb; exact hE.eq_symm heqb
              · exfalso
                have h3 : cmpE b a = Ordering.lt :=
                  hE.lt_of_lt_of_eq (hys.1 a2 h1) (hE.eq_symm heq2)
                have h4 : cmpE a b = Ordering.lt :=
                  hE.lt_of_lt_of_eq (hxs.1 b2 h2) (hE.eq_symm heqb)
                have h5 := hE.gt_of_lt h4
                rw [h3] at h5
                cases h5
          have hmem2 : ∀ z, (∃ c ∈ xs, cmpE z c = Ordering.eq) ↔
              (∃ c ∈ ys, cmpE z c = Ordering.eq) := by
            intro z
            constructor
            · rintro ⟨c, hc, hzc⟩
              rcases (hmem z).mp ⟨c, List.mem_cons_of_mem a hc, hzc⟩ with
                ⟨d, hd, hzd⟩
              rcases List.mem_cons.mp hd with h1 | h1
              · exfalso
                have h2 : cmpE a z = Ordering.lt :=
                  hE.lt_of_lt_of_eq (hxs.1 c hc) (hE.eq_symm hzc)
                have h3 : cmpE z a = Ordering.eq :=
                  hE.eq_trans (h1 ▸ hzd) (hE.eq_symm hab)
                have h4 := hE.eq_symm h3
                rw [h2] at h4
                cases h4
              · exact ⟨d, h1, hzd⟩
            · rintro ⟨c, hc, hzc⟩
              rcases (hmem z).mpr ⟨c, List.mem_cons_of_mem b hc, hzc⟩ with
                ⟨d, hd, hzd⟩
              rcases List.mem_cons.mp hd with h1 | h1
              · exfalso
                have h2 : cmpE b z = Ordering.lt :=
                  hE.lt_of_lt_of_eq (hys.1 c hc) (hE.eq_symm hzc)
                have h3 : cmpE z b = Ordering.eq := hE.eq_trans (h1 ▸ hzd) hab
                have h4 := hE.eq_symm h3
                rw [h2] at h4
                cases h4
              · exact ⟨d, h1, hzd⟩
          simp only [listEqBy, Bool.and_eq_true, ordering_beq_iff]
          exact ⟨hab, ih ys hxs.2 hys.2 hmem2⟩

/-- Two well-formed maps of nonempty sorted groups with the same
observable (key-class, element-class) members are equal as Rust `==`
observes them. -/
theorem goEq_of_exists (hG : LawfulCmp cmpG) (hE : LawfulCmp cmpE) :
    ∀ (gs hs : List (G × List E)),
      gs.Pairwise (fun p q => cmpG p.1 q.1 = Ordering.lt) →
      hs.Pairwise (fun p q => cmpG p.1 q.1 = Ordering.lt) →
      (∀ p ∈ gs, p.2.Pairwise (fun a b => cmpE a b = Ordering.lt)) →
      (∀ p ∈ hs, p.2.Pairwise (fun a b => cmpE a b = Ordering.lt)) →
      (∀ p ∈ gs, p.2 ≠ []) →
      (∀ p ∈ hs, p.2 ≠ []) →
      (∀ g x, (∃ p ∈ gs, cmpG g p.1 = Ordering.eq ∧
          ∃ y ∈ p.2, cmpE x y = Ordering.eq) ↔
        (∃ p ∈ hs, cmpG g p.1 = Ordering.eq ∧
          ∃ y ∈ p.2, cmpE x y = Ordering.eq)) →
      containerEq.go cmpG cmpE gs hs = true := by
  intro gs
  induction gs with
  | nil =>
      intro hs _ _ _ _ _ hnt hmem
      cases hs with
      | nil => rfl
      | cons q hs =>
          exfalso
          rcases List.exists_mem_of_ne_nil _ (hnt q (List.mem_cons_self q hs))
            with ⟨y, hy⟩
          rcases (hmem q.1 y).mpr ⟨q, List.mem_cons_self q hs, hG.refl q.1, y,
            hy, hE.refl y⟩ with ⟨p, hp, _⟩
          cases hp
  | cons p gs ih =>
      intro hs hgs hhs hsetg hseth hng hnt hmem
      cases hs with
      | nil =>
          exfalso
          rcases List.exists_mem_of_ne_nil _ (hng p (List.mem_cons_self p gs))
            with ⟨y, hy⟩
          rcases (hmem p.1 y).mp ⟨p, List.mem_cons_self p gs, hG.refl p.1, y,
            hy, hE.refl y⟩ with ⟨q, hq, _⟩
          cases hq
      | cons q hs =>
          rw [List.pairwise_cons] at hgs hhs
          rcases List.exists_mem_of_ne_nil _ (hng p (List.mem_cons_self p gs))
            with ⟨ye, hye⟩
          rcases List.exists_mem_of_ne_nil _ (hnt q (List.mem_cons_self q hs))
            with ⟨xe, hxe⟩
          have hpq : cmpG p.1 q.1 = Ordering.eq := by
            rcases (hmem p.1 ye).mp ⟨p, List.mem_cons_self p gs, hG.refl p.1,
              ye, hye, hE.refl ye⟩ with ⟨q2, hq2, hk2, _⟩
            rcases List.mem_cons.mp hq2 with h1 | h1
            · rw [h1] at hk2; exact hk2
            · rcases (hmem q.1 xe).mpr ⟨q, List.mem_cons_self q hs,
                hG.refl q.1, xe, hxe, hE.refl xe⟩ with ⟨p2, hp2, hkp2, _⟩
              rcases List.mem_cons.mp hp2 with h2 | h2
              · rw [h2] at hkp2; exact hG.eq_symm hkp2
              · exfalso
                have h3 : cmpG q.1 p.1 = Ordering.lt :=
                  hG.lt_of_lt_of_eq (hhs.1 q2 h1) (hG.eq_symm hk2)
                have h4 : cmpG p.1 q.1 = Ordering.lt :=
                  hG.lt_of_lt_of_eq (hgs.1 p2 h2) (hG.eq_symm hkp2)
                have h5 := hG.gt_of_lt h4
                rw [h3] at h5
                cases h5
          have hmemel : ∀ z, (∃ y ∈ p.2, cmpE z y = Ordering.eq) ↔
              (∃ y ∈ q.2, cmpE z y = Ordering.eq) := by
            intro z
            constructor
            · rintro ⟨y, hy, hzy⟩
              rcases (hmem p.1 z).mp ⟨p, List.mem_cons_self p gs, hG.refl p.1,
                y, hy, hzy⟩ with ⟨q2, hq2, hk2, y2, hy2, hz2⟩
              rcases List.mem_cons.mp hq2 with h1 | h1
              · rw [h1] at hy2; exact ⟨y2, hy2, hz2⟩
              · exfalso
                have h2 : cmpG q.1 q2.1 = Ordering.eq :=
                  hG.eq_trans (hG.eq_symm hpq) hk2
                have h3 := hhs.1 q2 h1
                rw [h3] at h2
                cases h2
            · rintro ⟨y, hy, hzy⟩
              rcases (hmem q.1 z).mpr ⟨q, List.mem_cons_self q hs,
                hG.refl q.1, y, hy, hzy⟩ with ⟨p2, hp2, hk2, y2, hy2, hz2⟩
              rcases List.mem_cons.mp hp2 with h1 | h1
              · rw [h1] at hy2; exact ⟨y2, hy2, hz2⟩
              · exfalso
                have h2 : cmpG p.1 p2.1 = Ordering.eq := hG.eq_trans hpq hk2
                have h3 := hgs.1 p2 h1
                rw [h3] at h2
                cases h2
          have hmem2 : ∀ g x, (∃ p2 ∈ gs, cmpG g p2.1 = Ordering.eq ∧
              ∃ y ∈ p2.2, cmpE x y = Ordering.eq) ↔
              (∃ q2 ∈ hs, cmpG g q2.1 = Ordering.eq ∧
                ∃ y ∈ q2.2, cmpE x y = Ordering.eq) := by
            intro g x
            constructor
            · rintro ⟨p2, hp2, hk, y, hy, hxy⟩
              rcases (hmem g x).mp ⟨p2, List.mem_cons_of_mem p hp2, hk, y, hy,
                hxy⟩ with ⟨q2, hq2, hk2, hy2⟩
              rcases List.mem_cons.mp hq2 with h1 | h1
              · exfalso
                have e1 : cmpG p.1 g = Ordering.eq := by
                  rw [h1] at hk2
                  exact hG.eq_trans hpq (hG.eq_symm hk2)
                have e2 : cmpG p.1 p2.1 = Ordering.eq := hG.eq_trans e1 hk
                have h3 := hgs.1 p2 hp2
                rw [h3] at e2
                cases e2
              · exact ⟨q2, h1, hk2, hy2⟩
            · rintro ⟨q2, hq2, hk, y, hy, hxy⟩
              rcases (hmem g x).mpr ⟨q2, List.mem_cons_of_mem q hq2, hk, y, hy,
                hxy⟩ with ⟨p2, hp2, hk2, hy2⟩
              rcases List.mem_cons.mp hp2 with h1 | h1
              · exfalso
                have e1 : cmpG q.1 g = Ordering.eq := by
                  rw [h1] at hk2
                  exact hG.eq_trans (hG.eq_symm hpq) (hG.eq_symm hk2)
                have e2 : cmpG q.1 q2.1 = Ordering.eq := hG.eq_trans e1 hk
                have h3 := hhs.1 q2 hq2
                rw [h3] at e2
                cases e2
              · exact ⟨p2, h1, hk2, hy2⟩
          simp only [containerEq.go, Bool.and_eq_true, ordering_beq_iff]
          refine ⟨⟨hpq, ?_⟩, ?_⟩
          · exact listEqBy_of_exists hE p.2 q.2
              (hsetg p (List.mem_cons_self p gs))
              (hseth q (List.mem_cons_self q hs)) hmemel
          · exact ih hs hgs.2 hhs.2
              (fun p2 hp2 => hsetg p2 (List.mem_cons_of_mem p hp2))
              (fun q2 hq2 => hseth q2 (List.mem_cons_of_mem q hq2))
              (fun p2 hp2 => hng p2 (List.mem_cons_of_mem p hp2))
              (fun q2 hq2 => hnt q2 (List.mem_cons_of_mem q hq2)) hmem2

theorem listEqBy_length (cmp : RCmp E) :
    ∀ (xs ys : List E), listEqBy cmp xs ys = true → xs.length = ys.length := by
  intro xs
  induction xs with
  | nil =>
      intro ys h
      cases ys with
      | nil => rfl
      | cons b ys => simp [listEqBy] at h
  | cons a xs ih =>
      intro ys h
      cases ys with
      | nil => simp [listEqBy] at h
      | cons b ys =>
          simp only [listEqBy, Bool.and_eq_true] at h
          simp [ih ys h.2]

theorem go_len_eq :
    ∀ (gs hs : List (G × List E)), containerEq.go cmpG cmpE gs hs = true →
      (gs.map (fun v => v.2.length)).sum = (hs.map (fun v => v.2.length)).sum ∧
        gs.length = hs.length := by
  intro gs
  induction gs with
  | nil =>
      intro hs h
      cases hs with
      | nil => exact ⟨rfl, rfl⟩
      | cons q hs => simp [containerEq.go] at h
  | cons p gs ih =>
      intro hs h
      cases hs with
      | nil => simp [containerEq.go] at h
      | cons q hs =>
          simp only [containerEq.go, Bool.and_eq_true] at h
          obtain ⟨⟨_, helem⟩, hgo⟩ := h
          have h1 := listEqBy_length cmpE p.2 q.2 helem
          have h2 := ih hs hgo
          simp only [List.map_cons, List.sum_cons, List.length_cons]
          rw [h1, h2.1, h2.2]
          exact ⟨rfl, rfl⟩

theorem containerEq_len_groups {s t : SortedGroups G E}
    (h : containerEq cmpG cmpE s t = true) :
    s.len = t.len ∧ s.groups_len = t.groups_len :=
  go_len_eq s.groups t.groups h

end ExtensionalityLemmas

/-- Claim C5: bulk construction is insensitive to the order of the input.
With no two order-equal elements in the input, permuting it yields a
container structurally equal per spec §4.1 — same keys, same groups, same
elements, compared as Rust `==` observes values, through the
`Ord`-consistent equality — and, with or without order-equal duplicates,
`len()` and `groups_len()` are invariant under permutation. -/
theorem C5_permutation_invariance {cmpG : RCmp G} {cmpE : RCmp E}
    (hG : LawfulCmp cmpG) (hE : LawfulCmp cmpE) (f : E → G)
    {xs ys : List E} (hperm : xs.Perm ys) :
    (xs.Pairwise (fun a b => ¬cmpE a b = Ordering.eq) →
        containerEq cmpG cmpE (SortedGroups.from_iter cmpG cmpE xs f)
          (SortedGroups.from_iter cmpG cmpE ys f) = true) ∧
      (SortedGroups.from_iter cmpG cmpE xs f).len =
        (SortedGroups.from_iter cmpG cmpE ys f).len ∧
      (SortedGroups.from_iter cmpG cmpE xs f).groups_len =
        (SortedGroups.from_iter cmpG cmpE ys f).groups_len := by
  have hmem : ∀ g x,
      (SortedGroups.from_iter cmpG cmpE xs f).holds cmpG cmpE g x ↔
        (SortedGroups.from_iter cmpG cmpE ys f).holds cmpG cmpE g x := by
    intro g x
    rw [holds_from_iter hG hE xs f g x, holds_from_iter hG hE ys f g x]
    constructor
    · rintro ⟨e, he, h⟩
      exact ⟨e, hperm.mem_iff.mp he, h⟩
    · rintro ⟨e, he, h⟩
      exact ⟨e, hperm.mem_iff.mpr he, h⟩
  have hceq : containerEq cmpG cmpE (SortedGroups.from_iter cmpG cmpE xs f)
      (SortedGroups.from_iter cmpG cmpE ys f) = true :=
    goEq_of_exists hG hE _ _
      (WF_from_iter hG hE xs f).1 (WF_from_iter hG hE ys f).1
      (WF_from_iter hG hE xs f).2 (WF_from_iter hG hE ys f).2
      (nonNil_from_iter xs f) (nonNil_from_iter ys f) hmem
  exact ⟨fun _ => hceq, (containerEq_len_groups hceq).1,
    (containerEq_len_groups hceq).2⟩

theorem C5_witness :
    containerEq natCmp natCmp
        (SortedGroups.from_iter natCmp natCmp [2, 1] (fun e => e))
        (SortedGroups.from_iter natCmp natCmp [1, 2] (fun e => e)) = true ∧
      (SortedGroups.from_iter natCmp natCmp [2, 1] (fun e => e)).len =
        (SortedGroups.from_iter natCmp natCmp [1, 2] (fun e => e)).len :=
  ⟨(C5_permutation_invariance lawful_natCmp lawful_natCmp (fun e => e)
      (by decide)).1 (by decide),
    (C5_permutation_invariance lawful_natCmp lawful_natCmp (fun e => e)
      (by decide)).2.1⟩
